import Mathlib

/-!
Shallow embedding of the Data-Visualization-Automation repository
(`src/app.py`, `src/data_processor.py`, `src/custom_app.py`, `src/config.py`).

The repository is a pandas/streamlit application.  The embedding models:
  * cell values as `Value` (text or integer), missing cells (`NaN`) as `none`;
  * a loaded spreadsheet as `Table` (header plus rows of optional cells);
  * Python's `str.split(':')`, `int(...)`, `str.lower()`, `str.strip()`,
    the `in` substring test, `str(...)` on values, and the relevant pandas
    operations (`ffill`, `dropna`, `unique`, `to_numeric(errors='coerce')`,
    object-dtype `sum`/`mean`/`max`/`min`) as executable Lean functions.

Notes on fidelity of the Python primitives:
  * `int(...)` is modelled as: strip ASCII whitespace, optional single sign,
    one or more ASCII digits.  (CPython additionally accepts underscores
    between digits and non-ASCII digits; those inputs are not modelled.)
  * `str.lower()` / `str.strip()` are modelled on their ASCII behaviour.
  * Python `//` and `%` on integers are floor division and a remainder with
    the divisor's sign; for the positive divisors used by the code these
    agree with `Int.ediv` / `Int.emod`.
  * floats only appear as pandas means; they are modelled exactly as `Rat`
    (the concrete values in the claims are exactly representable).
-/

namespace DataVizAuto

/-! ## Characters, whitespace, digits -/

/-- ASCII whitespace as recognised by Python's `str.strip()` / `int()`. -/
def isPySpace (c : Char) : Bool :=
  c = ' ' || c = '\t' || c = '\n' || c = '\r' || c = '\x0b' || c = '\x0c'

/-- Strip leading and trailing whitespace from a character list
(Python `str.strip()`). -/
def wsTrim (cs : List Char) : List Char :=
  ((cs.dropWhile isPySpace).reverse.dropWhile isPySpace).reverse

/-- ASCII digit test. -/
def isDigitChar (c : Char) : Bool :=
  48 ≤ c.toNat && c.toNat ≤ 57

/-- Numeric value of an ASCII digit character. -/
def charDigit (c : Char) : Nat := c.toNat - 48

/-- The decimal digit characters. -/
def digitToChar (d : Nat) : Char :=
  match d with
  | 0 => '0' | 1 => '1' | 2 => '2' | 3 => '3' | 4 => '4'
  | 5 => '5' | 6 => '6' | 7 => '7' | 8 => '8' | 9 => '9'
  | _ => '*'

/-- Decimal value of a most-significant-digit-first digit list. -/
def natOfDigits (cs : List Char) : Nat :=
  cs.foldl (fun a c => a * 10 + charDigit c) 0

/-- Little-endian decimal digits of `n`, with explicit fuel so the
definition is structurally recursive (`n < fuel` guarantees completion). -/
def natDigitsRevFuel : Nat → Nat → List Char
  | 0, _ => []
  | fuel + 1, n =>
    if n < 10 then [digitToChar n]
    else digitToChar (n % 10) :: natDigitsRevFuel fuel (n / 10)

/-- Decimal rendering of a natural number (Python `str` on a non-negative
integer). -/
def natChars (n : Nat) : List Char :=
  (natDigitsRevFuel (n + 1) n).reverse

/-- Decimal rendering of an integer (Python `str(int)`). -/
def intChars (i : Int) : List Char :=
  if i < 0 then '-' :: natChars i.natAbs else natChars i.toNat

/-- Python `str` applied to an integer. -/
def pyStrInt (i : Int) : String := String.mk (intChars i)

/-! ## Python `int(...)` -/

/-- Core of Python `int(str)` after stripping: optional sign then one or
more ASCII digits. -/
def pyIntCore (cs : List Char) : Option Int :=
  match cs with
  | [] => none
  | c :: rest =>
    if c = '-' then
      if rest ≠ [] ∧ rest.all isDigitChar then some (-(natOfDigits rest : Int)) else none
    else if c = '+' then
      if rest ≠ [] ∧ rest.all isDigitChar then some ((natOfDigits rest : Int)) else none
    else if (c :: rest).all isDigitChar then some ((natOfDigits (c :: rest) : Int)) else none

/-- Python `int(str)` on a character list: `none` models a raised
`ValueError`. -/
def pyIntChars (cs : List Char) : Option Int :=
  pyIntCore (wsTrim cs)

/-- Python `int(str)`. -/
def pyInt (s : String) : Option Int := pyIntChars s.data

/-! ## Python `str.split` on a single-character separator -/

/-- Python `s.split(sep)` for a one-character separator.  Always returns at
least one group; `"".split(':') = ['']`. -/
def splitOnChar (sep : Char) : List Char → List (List Char)
  | [] => [[]]
  | c :: rest =>
    if c = sep then [] :: splitOnChar sep rest
    else
      match splitOnChar sep rest with
      | [] => [[c]]
      | g :: gs => (c :: g) :: gs

/-- `str.split(':')` at the `String` level. -/
def pySplitColon (s : String) : List String :=
  (splitOnChar ':' s.data).map String.mk

/-! ## Duration codec
(`time_str_to_seconds` / `seconds_to_time_str`, identical in
`src/app.py`, `src/custom_app.py` and `src/data_processor.py`). -/

/-- `time_str_to_seconds` from `src/data_processor.py` (same code in
`src/app.py` and `src/custom_app.py`).  The `Option` input models the
`pd.isna` guard: a missing cell parses to `0`.  Any parse failure
(wrong part count, non-integer part) yields the fallback `0`. -/
def time_str_to_seconds (t : Option String) : Int :=
  match t with
  | none => 0
  | some s =>
    match pySplitColon s with
    | [p1, p2, p3] =>
      match pyInt p1, pyInt p2, pyInt p3 with
      | some h, some m, some sec => h * 3600 + m * 60 + sec
      | _, _, _ => 0
    | _ => 0

/-- Python `f"\x7bx:02d\x7d"`: zero-pad a rendered integer to width two. -/
def fmt02chars (i : Int) : List Char :=
  if 0 ≤ i ∧ i < 10 then '0' :: intChars i else intChars i

/-- `seconds_to_time_str` from `src/data_processor.py`: render
`HH:MM:SS`.  Python `//` and `%` have floor/non-negative-remainder
semantics for the positive divisors used here, which is exactly Lean's
`/` and `%` on `Int` (Euclidean division). -/
def seconds_to_time_str (seconds : Int) : String :=
  String.mk (fmt02chars (seconds / 3600) ++
    ':' :: fmt02chars (seconds % 3600 / 60) ++
    ':' :: fmt02chars (seconds % 60))

/-- The three integer fields obtained by the parser's own split, used to
state what `time_str_to_seconds` does on each class of input. -/
def parsedTriple (t : Option String) : Option (Int × Int × Int) :=
  match t with
  | none => none
  | some s =>
    match pySplitColon s with
    | [p1, p2, p3] =>
      match pyInt p1, pyInt p2, pyInt p3 with
      | some h, some m, some sec => some (h, m, sec)
      | _, _, _ => none
    | _ => none

/-! ## Lemmas about digits and decimal rendering -/

theorem charDigit_digitToChar (d : Nat) (h : d < 10) :
    charDigit (digitToChar d) = d := by
  interval_cases d <;> rfl

theorem isDigitChar_digitToChar (d : Nat) (h : d < 10) :
    isDigitChar (digitToChar d) = true := by
  interval_cases d <;> rfl

theorem digit_facts (c : Char) (h : isDigitChar c = true) :
    c ≠ ':' ∧ c ≠ '-' ∧ c ≠ '+' ∧ isPySpace c = false := by
  refine ⟨?_, ?_, ?_, ?_⟩
  · rintro rfl; exact absurd h (by decide)
  · rintro rfl; exact absurd h (by decide)
  · rintro rfl; exact absurd h (by decide)
  · cases hc : isPySpace c with
    | false => rfl
    | true =>
      exfalso
      simp only [isPySpace, Bool.or_eq_true, decide_eq_true_eq] at hc
      rcases hc with ((((rfl | rfl) | rfl) | rfl) | rfl) | rfl <;>
        exact absurd h (by decide)

theorem natOfDigits_append_one (xs : List Char) (c : Char) :
    natOfDigits (xs ++ [c]) = natOfDigits xs * 10 + charDigit c := by
  simp [natOfDigits, List.foldl_append]

theorem natOfDigits_cons_zero (cs : List Char) :
    natOfDigits ('0' :: cs) = natOfDigits cs := by
  simp [natOfDigits]
  rfl

theorem natDigitsRevFuel_spec (fuel : Nat) :
    ∀ n, n < fuel →
      (∀ c ∈ natDigitsRevFuel fuel n, isDigitChar c = true) ∧
      natDigitsRevFuel fuel n ≠ [] ∧
      natOfDigits (natDigitsRevFuel fuel n).reverse = n := by
  induction fuel with
  | zero => intro n h; omega
  | succ fuel ih =>
    intro n h
    by_cases h10 : n < 10
    · refine ⟨?_, ?_, ?_⟩ <;> simp only [natDigitsRevFuel, if_pos h10]
      · intro c hc
        rcases List.mem_singleton.mp hc with rfl
        exact isDigitChar_digitToChar n h10
      · simp
      · simpa [natOfDigits] using charDigit_digitToChar n h10
    · have hrec : n / 10 < fuel := by omega
      obtain ⟨hd, hne, hv⟩ := ih (n / 10) hrec
      refine ⟨?_, ?_, ?_⟩ <;> simp only [natDigitsRevFuel, if_neg h10]
      · intro c hc
        rcases List.mem_cons.mp hc with rfl | hc
        · exact isDigitChar_digitToChar _ (by omega)
        · exact hd c hc
      · simp
      · rw [List.reverse_cons, natOfDigits_append_one, hv,
          charDigit_digitToChar _ (by omega)]
        omega

theorem natChars_all_digit (n : Nat) :
    ∀ c ∈ natChars n, isDigitChar c = true := by
  intro c hc
  exact (natDigitsRevFuel_spec (n + 1) n (by omega)).1 c (List.mem_reverse.mp hc)

theorem natChars_ne_nil (n : Nat) : natChars n ≠ [] := by
  intro h
  exact (natDigitsRevFuel_spec (n + 1) n (by omega)).2.1 (by
    simpa [natChars] using h)

theorem natOfDigits_natChars (n : Nat) : natOfDigits (natChars n) = n :=
  (natDigitsRevFuel_spec (n + 1) n (by omega)).2.2

/-! ## Lemmas about `wsTrim` and `pyInt` on digit strings -/

theorem dropWhile_all_false {α : Type} (p : α → Bool) :
    ∀ l : List α, (∀ c ∈ l, p c = false) → l.dropWhile p = l := by
  intro l hl
  cases l with
  | nil => rfl
  | cons c cs => simp [List.dropWhile_cons, hl c (by simp)]

theorem wsTrim_of_digits (cs : List Char)
    (h : ∀ c ∈ cs, isDigitChar c = true) : wsTrim cs = cs := by
  have hns : ∀ c ∈ cs, isPySpace c = false := fun c hc => (digit_facts c (h c hc)).2.2.2
  unfold wsTrim
  rw [dropWhile_all_false _ cs hns,
    dropWhile_all_false _ cs.reverse (fun c hc => hns c (List.mem_reverse.mp hc)),
    List.reverse_reverse]

theorem pyIntChars_of_digits (cs : List Char) (hne : cs ≠ [])
    (h : ∀ c ∈ cs, isDigitChar c = true) :
    pyIntChars cs = some ((natOfDigits cs : Nat) : Int) := by
  unfold pyIntChars
  rw [wsTrim_of_digits cs h]
  cases cs with
  | nil => exact absurd rfl hne
  | cons c rest =>
    have hc : isDigitChar c = true := h c (by simp)
    have hall : (c :: rest).all isDigitChar = true := by
      rw [List.all_eq_true]; exact h
    simp only [pyIntCore]
    rw [if_neg (digit_facts c hc).2.1, if_neg (digit_facts c hc).2.2.1, if_pos hall]

/-! ## Lemmas about `fmt02chars` for non-negative integers -/

theorem intChars_nonneg (i : Int) (h : 0 ≤ i) :
    intChars i = natChars i.toNat := by
  unfold intChars
  rw [if_neg (by omega)]

theorem fmt02chars_all_digit (i : Int) (h : 0 ≤ i) :
    ∀ c ∈ fmt02chars i, isDigitChar c = true := by
  intro c hc
  unfold fmt02chars at hc
  by_cases h10 : 0 ≤ i ∧ i < 10
  · rw [if_pos h10, intChars_nonneg i h] at hc
    rcases List.mem_cons.mp hc with rfl | hc
    · decide
    · exact natChars_all_digit _ c hc
  · rw [if_neg h10, intChars_nonneg i h] at hc
    exact natChars_all_digit _ c hc

theorem fmt02chars_ne_nil (i : Int) : fmt02chars i ≠ [] := by
  unfold fmt02chars
  by_cases h10 : 0 ≤ i ∧ i < 10
  · rw [if_pos h10]; simp
  · rw [if_neg h10]
    unfold intChars
    by_cases hneg : i < 0
    · rw [if_pos hneg]; simp
    · rw [if_neg hneg]; exact natChars_ne_nil _

theorem fmt02chars_no_colon (i : Int) (h : 0 ≤ i) :
    ∀ c ∈ fmt02chars i, c ≠ ':' :=
  fun c hc => (digit_facts c (fmt02chars_all_digit i h c hc)).1

theorem pyIntChars_fmt02chars (i : Int) (h : 0 ≤ i) :
    pyIntChars (fmt02chars i) = some i := by
  unfold fmt02chars
  by_cases h10 : 0 ≤ i ∧ i < 10
  · rw [if_pos h10, intChars_nonneg i h,
      pyIntChars_of_digits _ (by simp)
        (by
          intro c hc
          rcases List.mem_cons.mp hc with rfl | hc
          · decide
          · exact natChars_all_digit _ c hc),
      natOfDigits_cons_zero, natOfDigits_natChars, Int.toNat_of_nonneg h]
  · rw [if_neg h10, intChars_nonneg i h,
      pyIntChars_of_digits _ (natChars_ne_nil _) (natChars_all_digit _),
      natOfDigits_natChars, Int.toNat_of_nonneg h]

/-! ## Lemmas about `splitOnChar` -/

theorem splitOnChar_of_no_sep (sep : Char) :
    ∀ cs : List Char, (∀ c ∈ cs, c ≠ sep) → splitOnChar sep cs = [cs] := by
  intro cs h
  induction cs with
  | nil => rfl
  | cons c rest ih =>
    unfold splitOnChar
    rw [if_neg (by
      intro hc
      exact (h c (by simp)) hc)]
    rw [ih (fun c hc => h c (by simp [hc]))]

theorem splitOnChar_append (sep : Char) (a b : List Char)
    (h : ∀ c ∈ a, c ≠ sep) :
    splitOnChar sep (a ++ sep :: b) = a :: splitOnChar sep b := by
  induction a with
  | nil =>
    simp only [List.nil_append]
    conv_lhs => rw [splitOnChar]
    rw [if_pos rfl]
  | cons c rest ih =>
    simp only [List.cons_append]
    conv_lhs => rw [splitOnChar]
    rw [if_neg (by
      intro hc
      exact (h c (by simp)) hc)]
    rw [ih (fun c hc => h c (by simp [hc]))]

/-! ## Claim C3: parse-then-format round trip for valid `HH:MM:SS` texts -/

/-- C3: for every text `t` whose colon-split yields exactly three integer
parts `h`, `m`, `s` with `0 ≤ h`, `0 ≤ m ≤ 59`, `0 ≤ s ≤ 59`,
`seconds_to_time_str (time_str_to_seconds t)` is `t` re-rendered with
canonical zero-padding: each field rendered by `fmt02chars`
(two-digit minutes and seconds, hours at least two digits, unbounded). -/
theorem c3_parse_format_round_trip (t a b c : String) (h m s : Int)
    (hsplit : pySplitColon t = [a, b, c])
    (ha : pyInt a = some h) (hb : pyInt b = some m) (hc : pyInt c = some s)
    (_hh : 0 ≤ h) (hm0 : 0 ≤ m) (hm1 : m ≤ 59) (hs0 : 0 ≤ s) (hs1 : s ≤ 59) :
    seconds_to_time_str (time_str_to_seconds (some t)) =
      String.mk (fmt02chars h ++ ':' :: fmt02chars m ++ ':' :: fmt02chars s) := by
  have hval : time_str_to_seconds (some t) = h * 3600 + m * 60 + s := by
    simp only [time_str_to_seconds, hsplit, ha, hb, hc]
  rw [hval]
  unfold seconds_to_time_str
  have e1 : (h * 3600 + m * 60 + s) / 3600 = h := by omega
  have e2 : (h * 3600 + m * 60 + s) % 3600 / 60 = m := by omega
  have e3 : (h * 3600 + m * 60 + s) % 60 = s := by omega
  rw [e1, e2, e3]

/-- Witness for C3 at the concrete input `"1:30:45"` (Scenario B's value up
to zero-padding): the round trip normalizes it to `"01:30:45"`. -/
theorem c3_witness :
    seconds_to_time_str (time_str_to_seconds (some "1:30:45")) = "01:30:45" := by
  have h := c3_parse_format_round_trip "1:30:45" "1" "30" "45" 1 30 45
    rfl rfl rfl rfl (by norm_num) (by norm_num) (by norm_num) (by norm_num)
    (by norm_num)
  exact h.trans rfl

/-! ## Claim C4: totality and fallback behaviour of the parser -/

/-- C4 (counterexample to non-negativity): the text `"-1:00:00"` splits into
three integer parts `-1, 0, 0`, so the parser returns `-3600`, a negative
value — the claim that `parseDuration` always returns a non-negative
integer is false. -/
theorem c4_counterexample :
    time_str_to_seconds (some "-1:00:00") = -3600 ∧
    time_str_to_seconds (some "-1:00:00") < 0 := by
  exact ⟨rfl, by decide⟩

/-- C4 (amended): the parser is total (never raises).  An input with no
three-integer-part colon split returns `0`; an input splitting into integer
parts `h, m, s` returns `h * 3600 + m * 60 + s`, and that value is
non-negative whenever all three parts are non-negative (which covers all
digit-only texts; signed parts such as `"-1:00:00"` may give a negative
result). -/
theorem time_str_to_seconds_eq_parsedTriple (s : String) :
    time_str_to_seconds (some s) =
      (match parsedTriple (some s) with
       | some (h, m, sec) => h * 3600 + m * 60 + sec
       | none => 0) := by
  simp only [time_str_to_seconds, parsedTriple]
  rcases hp : pySplitColon s with _ | ⟨p1, _ | ⟨p2, _ | ⟨p3, _ | ps⟩⟩⟩ <;>
    try rfl
  rcases h1 : pyInt p1 with _ | h <;> rcases h2 : pyInt p2 with _ | m <;>
    rcases h3 : pyInt p3 with _ | sc <;> simp only [h1, h2, h3]

theorem c4_never_raises_and_fallback (t : Option String) :
    (parsedTriple t = none → time_str_to_seconds t = 0) ∧
    (∀ h m s : Int, parsedTriple t = some (h, m, s) →
      time_str_to_seconds t = h * 3600 + m * 60 + s) ∧
    (∀ h m s : Int, parsedTriple t = some (h, m, s) →
      0 ≤ h → 0 ≤ m → 0 ≤ s → 0 ≤ time_str_to_seconds t) := by
  cases t with
  | none =>
    refine ⟨fun _ => rfl, fun h m s hc => ?_, fun h m s hc _ _ _ => ?_⟩ <;>
      simp [parsedTriple] at hc
  | some s =>
    have he := time_str_to_seconds_eq_parsedTriple s
    refine ⟨fun hn => ?_, fun h m sc hc => ?_, fun h m sc hc hh hm hs => ?_⟩
    · rw [he, hn]
    · rw [he, hc]
    · rw [he, hc]
      show (0 : Int) ≤ h * 3600 + m * 60 + sc
      omega

/-- Witness for C4 (amended) at concrete inputs: `"01:02:03"` evaluates to
`3723` and is non-negative, `"abc"` falls back to `0`. -/
theorem c4_witness :
    time_str_to_seconds (some "01:02:03") = 1 * 3600 + 2 * 60 + 3 ∧
    0 ≤ time_str_to_seconds (some "01:02:03") ∧
    time_str_to_seconds (some "abc") = 0 := by
  refine ⟨?_, ?_, ?_⟩
  · exact (c4_never_raises_and_fallback (some "01:02:03")).2.1 1 2 3 rfl
  · exact (c4_never_raises_and_fallback (some "01:02:03")).2.2 1 2 3 rfl
      (by norm_num) (by norm_num) (by norm_num)
  · exact (c4_never_raises_and_fallback (some "abc")).1 rfl

/-! ## Claim C10: format-then-parse round trip -/

theorem pyInt_mk (cs : List Char) : pyInt (String.mk cs) = pyIntChars cs := rfl

/-- C10: for every natural number `s`, parsing the rendered duration text
recovers `s`, the text splits on `':'` into exactly the three rendered
fields, and the minutes and seconds fields parse to values in `[0, 59]`. -/
theorem c10_format_then_parse (n : Nat) :
    time_str_to_seconds (some (seconds_to_time_str (n : Int))) = (n : Int) ∧
    pySplitColon (seconds_to_time_str (n : Int)) =
      [String.mk (fmt02chars ((n : Int) / 3600)),
       String.mk (fmt02chars ((n : Int) % 3600 / 60)),
       String.mk (fmt02chars ((n : Int) % 60))] ∧
    (0 ≤ (n : Int) % 3600 / 60 ∧ (n : Int) % 3600 / 60 ≤ 59) ∧
    (0 ≤ (n : Int) % 60 ∧ (n : Int) % 60 ≤ 59) ∧
    pyInt (String.mk (fmt02chars ((n : Int) % 3600 / 60))) =
      some ((n : Int) % 3600 / 60) ∧
    pyInt (String.mk (fmt02chars ((n : Int) % 60))) = some ((n : Int) % 60) := by
  have hh : 0 ≤ (n : Int) / 3600 := by omega
  have hm : 0 ≤ (n : Int) % 3600 / 60 := by omega
  have hs : 0 ≤ (n : Int) % 60 := by omega
  have hsplit : pySplitColon (seconds_to_time_str (n : Int)) =
      [String.mk (fmt02chars ((n : Int) / 3600)),
       String.mk (fmt02chars ((n : Int) % 3600 / 60)),
       String.mk (fmt02chars ((n : Int) % 60))] := by
    show (splitOnChar ':' (fmt02chars ((n : Int) / 3600) ++
      ':' :: fmt02chars ((n : Int) % 3600 / 60) ++
      ':' :: fmt02chars ((n : Int) % 60))).map String.mk = _
    simp only [List.cons_append, List.append_assoc]
    rw [splitOnChar_append ':' _ _ (fmt02chars_no_colon _ hh),
      splitOnChar_append ':' _ _ (fmt02chars_no_colon _ hm),
      splitOnChar_of_no_sep ':' _ (fmt02chars_no_colon _ hs)]
    rfl
  refine ⟨?_, hsplit, ⟨hm, by omega⟩, ⟨hs, by omega⟩,
    by rw [pyInt_mk, pyIntChars_fmt02chars _ hm],
    by rw [pyInt_mk, pyIntChars_fmt02chars _ hs]⟩
  simp only [time_str_to_seconds, hsplit, pyInt_mk,
    pyIntChars_fmt02chars _ hh, pyIntChars_fmt02chars _ hm,
    pyIntChars_fmt02chars _ hs]
  omega

/-! ## Column Role Detector
(`find_column_by_keywords` and `detect_columns` from `src/app.py`). -/

/-- Python `str.lower()` (ASCII case folding). -/
def pyLowerChars (cs : List Char) : List Char := cs.map Char.toLower

/-- `str(c).lower().strip()` — the column-name normalization applied in
`find_column_by_keywords`. -/
def pyLowerStrip (s : String) : List Char := wsTrim (pyLowerChars s.data)

/-- Does `needle` occur at the start of `hay`? -/
def listStartsWith : List Char → List Char → Bool
  | [], _ => true
  | _ :: _, [] => false
  | a :: as, b :: bs => a == b && listStartsWith as bs

/-- Python's substring test `needle in hay`. -/
def listContains (needle : List Char) : List Char → Bool
  | [] => needle.isEmpty
  | b :: bs => listStartsWith needle (b :: bs) || listContains needle bs

/-- The per-column test of `find_column_by_keywords`:
`keyword.lower() in str(col).lower().strip()`. -/
def colMatches (kw col : String) : Bool :=
  listContains (pyLowerChars kw.data) (pyLowerStrip col)

/-- Inner loop of `find_column_by_keywords`: scan the columns in header
order and return the first whose lowered, stripped name contains the
keyword. -/
def findColForKw (kw : String) : List String → Option String
  | [] => none
  | c :: cs => if colMatches kw c then some c else findColForKw kw cs

/-- `find_column_by_keywords(df, keywords)` from `src/app.py`.  The outer
loop is over the keywords, the inner loop over the columns, so the first
keyword that matches any column decides the result. -/
def find_column_by_keywords (cols : List String) : List String → Option String
  | [] => none
  | kw :: kws =>
    match findColForKw kw cols with
    | some c => some c
    | none => find_column_by_keywords cols kws

/-- The role map produced by `detect_columns` (`columns_found` in
`src/app.py`). -/
structure ColumnsFound where
  main : Option String
  sub : Option String
  component : Option String
  prep_time : Option String
  activity_time : Option String
  total_time : Option String
  manpower : Option String
deriving DecidableEq

/-- `detect_columns(df)` from `src/app.py`, with its literal keyword
lists. -/
def detect_columns (cols : List String) : ColumnsFound :=
  { main := find_column_by_keywords cols ["module", "main", "category"]
    sub := find_column_by_keywords cols ["sub", "sub_module", "submodule", "group"]
    component := find_column_by_keywords cols
      ["component", "item", "name", "equipment", "device"]
    prep_time := find_column_by_keywords cols
      ["prep", "preparation", "setup", "finalization"]
    activity_time := find_column_by_keywords cols
      ["activity", "work", "execution", "action"]
    total_time := find_column_by_keywords cols ["total", "total_time", "duration"]
    manpower := find_column_by_keywords cols
      ["man", "power", "personnel", "people", "workers", "staff"] }

/-! ## Substring-test lemmas -/

theorem listStartsWith_iff (needle : List Char) :
    ∀ hay, listStartsWith needle hay = true ↔ ∃ t, hay = needle ++ t := by
  induction needle with
  | nil => intro hay; simp [listStartsWith]
  | cons a as ih =>
    intro hay
    cases hay with
    | nil => simp [listStartsWith]
    | cons b bs =>
      simp only [listStartsWith, Bool.and_eq_true, beq_iff_eq, ih bs]
      constructor
      · rintro ⟨rfl, t, rfl⟩; exact ⟨t, rfl⟩
      · rintro ⟨t, ht⟩
        injection ht with h1 h2
        exact ⟨h1.symm, t, h2⟩

theorem listContains_iff (needle : List Char) :
    ∀ hay, listContains needle hay = true ↔ ∃ p q, hay = p ++ needle ++ q := by
  intro hay
  induction hay with
  | nil =>
    simp only [listContains, List.isEmpty_iff]
    constructor
    · rintro rfl; exact ⟨[], [], rfl⟩
    · rintro ⟨p, q, hpq⟩
      rcases List.append_eq_nil.mp (List.append_eq_nil.mp hpq.symm).1 with ⟨-, h2⟩
      exact h2
  | cons b bs ih =>
    simp only [listContains, Bool.or_eq_true, listStartsWith_iff, ih]
    constructor
    · rintro (⟨t, ht⟩ | ⟨p, q, rfl⟩)
      · exact ⟨[], t, by simpa using ht⟩
      · exact ⟨b :: p, q, rfl⟩
    · rintro ⟨p, q, hpq⟩
      cases p with
      | nil =>
        left
        exact ⟨q, by simpa using hpq⟩
      | cons x xs =>
        right
        injection hpq with h1 h2
        exact ⟨xs, q, h2⟩

theorem listContains_trans {a b c : List Char}
    (hab : listContains a b = true) (hbc : listContains b c = true) :
    listContains a c = true := by
  rcases (listContains_iff a b).mp hab with ⟨p, q, rfl⟩
  rcases (listContains_iff _ c).mp hbc with ⟨p', q', rfl⟩
  exact (listContains_iff a _).mpr ⟨p' ++ p, q ++ q', by simp⟩

/-! ## Detector loop lemmas -/

theorem findColForKw_sound (kw : String) :
    ∀ cols c, findColForKw kw cols = some c →
      ∃ pre post, cols = pre ++ c :: post ∧ colMatches kw c = true ∧
        ∀ d ∈ pre, colMatches kw d = false := by
  intro cols
  induction cols with
  | nil => intro c h; simp [findColForKw] at h
  | cons d ds ih =>
    intro c h
    by_cases hd : colMatches kw d = true
    · simp only [findColForKw, if_pos hd, Option.some.injEq] at h
      subst h
      exact ⟨[], ds, by simp, hd, by simp⟩
    · simp only [findColForKw, if_neg hd] at h
      obtain ⟨pre, post, rfl, hc, hpre⟩ := ih c h
      exact ⟨d :: pre, post, rfl, hc, by
        intro e he
        rcases List.mem_cons.mp he with rfl | he
        · exact Bool.not_eq_true _ ▸ (by simpa using hd)
        · exact hpre e he⟩

theorem findColForKw_none_iff (kw : String) :
    ∀ cols, findColForKw kw cols = none ↔ ∀ c ∈ cols, colMatches kw c = false := by
  intro cols
  induction cols with
  | nil => simp [findColForKw]
  | cons d ds ih =>
    by_cases hd : colMatches kw d = true
    · simp [findColForKw, hd]
    · simp only [findColForKw, if_neg hd, ih]
      constructor
      · intro h c hc
        rcases List.mem_cons.mp hc with rfl | hc
        · simpa using hd
        · exact h c hc
      · intro h c hc
        exact h c (by simp [hc])

theorem findColForKw_isSome_of_mem (kw c : String) :
    ∀ cols, c ∈ cols → colMatches kw c = true → findColForKw kw cols ≠ none := by
  intro cols hmem hc h
  exact absurd hc (by simpa using (findColForKw_none_iff kw cols).mp h c hmem)

theorem findColForKw_mem (kw : String) :
    ∀ cols c, findColForKw kw cols = some c → c ∈ cols ∧ colMatches kw c = true := by
  intro cols
  induction cols with
  | nil => intro c h; simp [findColForKw] at h
  | cons d ds ih =>
    intro c h
    by_cases hd : colMatches kw d = true
    · simp only [findColForKw, if_pos hd, Option.some.injEq] at h
      subst h
      exact ⟨by simp, hd⟩
    · simp only [findColForKw, if_neg hd] at h
      obtain ⟨hmem, hc⟩ := ih c h
      exact ⟨by simp [hmem], hc⟩

theorem find_column_sound (cols : List String) :
    ∀ kws c, find_column_by_keywords cols kws = some c →
      c ∈ cols ∧ ∃ kw ∈ kws, colMatches kw c = true := by
  intro kws
  induction kws with
  | nil => intro c h; simp [find_column_by_keywords] at h
  | cons kw kws ih =>
    intro c h
    simp only [find_column_by_keywords] at h
    cases hf : findColForKw kw cols with
    | some d =>
      rw [hf] at h
      obtain rfl : d = c := by simpa using h
      obtain ⟨hmem, hc⟩ := findColForKw_mem kw cols _ hf
      exact ⟨hmem, kw, by simp, hc⟩
    | none =>
      rw [hf] at h
      obtain ⟨hmem, kw', hkw', hc⟩ := ih c h
      exact ⟨hmem, kw', by simp [hkw'], hc⟩

/-! ## Claim C1: subcategory detection -/

/-- C1 (counterexample): the header `"Sub Category"` contains `"sub"` but
not `"module"`, yet `detect_columns` resolves the subcategory role to it —
the claimed dual-substring requirement does not hold in the code. -/
theorem c1_counterexample :
    (detect_columns ["Sub Category"]).sub = some "Sub Category" ∧
    colMatches "module" "Sub Category" = false := ⟨rfl, rfl⟩

/-- C1 (amended): the subcategory role resolves via the keyword list
`["sub", "sub_module", "submodule", "group"]` alone: any header containing
`"sub"` (no `"module"` co-occurrence required) makes the role resolve, and
a resolved column always contains `"sub"` or `"group"` in its lowered,
stripped name. -/
theorem c1_sub_detection (cols : List String) :
    (∀ c ∈ cols, colMatches "sub" c = true → (detect_columns cols).sub ≠ none) ∧
    (∀ c, (detect_columns cols).sub = some c →
      c ∈ cols ∧ (colMatches "sub" c = true ∨ colMatches "group" c = true)) := by
  constructor
  · intro c hmem hc h
    have h1 : findColForKw "sub" cols = none := by
      simp only [detect_columns, find_column_by_keywords] at h
      cases hf : findColForKw "sub" cols with
      | some d => rw [hf] at h; simp at h
      | none => rfl
    exact findColForKw_isSome_of_mem "sub" c cols hmem hc h1
  · intro c h
    obtain ⟨hmem, kw, hkw, hc⟩ := find_column_sound cols _ c h
    refine ⟨hmem, ?_⟩
    have hsub : ∀ kw' : String,
        listContains (pyLowerChars "sub".data) (pyLowerChars kw'.data) = true →
        colMatches kw' c = true → colMatches "sub" c = true := by
      intro kw' hin hc'
      exact listContains_trans hin hc'
    simp only [List.mem_cons, List.not_mem_nil, or_false] at hkw
    rcases hkw with rfl | rfl | rfl | rfl
    · exact Or.inl hc
    · exact Or.inl (hsub _ (by decide) hc)
    · exact Or.inl (hsub _ (by decide) hc)
    · exact Or.inr hc

/-- Witness for C1 (amended) at the header list `["Sub Category"]`. -/
theorem c1_witness :
    (detect_columns ["Sub Category"]).sub ≠ none ∧
    ("Sub Category" ∈ ["Sub Category"] ∧
      (colMatches "sub" "Sub Category" = true ∨
        colMatches "group" "Sub Category" = true)) :=
  ⟨(c1_sub_detection ["Sub Category"]).1 "Sub Category" (by simp) (by decide),
   (c1_sub_detection ["Sub Category"]).2 "Sub Category" rfl⟩

/-! ## Claim C2: tie-break order of the detector -/

/-- C2 (counterexample): with header `["Main Category", "Module X"]` the
earlier column matches the role keyword `"main"`, but the detector returns
the later column `"Module X"` because the keyword `"module"` has higher
priority — first-matching-column-in-header-order does not hold across
keywords. -/
theorem c2_counterexample :
    (detect_columns ["Main Category", "Module X"]).main = some "Module X" ∧
    (detect_columns ["Main Category", "Module X"]).main ≠ some "Main Category" ∧
    colMatches "main" "Main Category" = true := by
  refine ⟨rfl, ?_, rfl⟩
  decide

/-- C2 (amended): keyword priority dominates header order.  A result for
keyword list `kw :: kws` is either the first column in header order whose
lowered, stripped name contains the first keyword `kw` (even when an
earlier column matches a later keyword), or — when no column contains
`kw` — the result of scanning the remaining keywords. -/
theorem c2_keyword_priority (cols kws : List String) (kw c : String)
    (h : find_column_by_keywords cols (kw :: kws) = some c) :
    (∃ pre post, cols = pre ++ c :: post ∧ colMatches kw c = true ∧
      ∀ d ∈ pre, colMatches kw d = false) ∨
    ((∀ d ∈ cols, colMatches kw d = false) ∧
      find_column_by_keywords cols kws = some c) := by
  simp only [find_column_by_keywords] at h
  cases hf : findColForKw kw cols with
  | some d =>
    rw [hf] at h
    obtain rfl : d = c := by simpa using h
    exact Or.inl (findColForKw_sound kw cols _ hf)
  | none =>
    rw [hf] at h
    exact Or.inr ⟨(findColForKw_none_iff kw cols).mp hf, h⟩

/-- Witness for C2 (amended) at the concrete header list
`["Main Category", "Module X"]` with the category keyword list: the
returned column `"Module X"` is the first (and only) column containing
the first keyword `"module"`. -/
theorem c2_witness :
    (∃ pre post, ["Main Category", "Module X"] = pre ++ "Module X" :: post ∧
      colMatches "module" "Module X" = true ∧
      ∀ d ∈ pre, colMatches "module" d = false) ∨
    ((∀ d ∈ ["Main Category", "Module X"], colMatches "module" d = false) ∧
      find_column_by_keywords ["Main Category", "Module X"] ["main", "category"] =
        some "Module X") :=
  c2_keyword_priority ["Main Category", "Module X"] ["main", "category"]
    "module" "Module X" rfl

/-! ## Tables and cell values -/

/-- A spreadsheet cell value: text or integer.  A missing cell (`NaN`)
is `none` at use sites. -/
inductive Value where
  | str (s : String)
  | int (n : Int)
deriving DecidableEq

/-- Python `str(x)` applied to a cell value. -/
def pyStr : Value → String
  | .str s => s
  | .int n => pyStrInt n

/-- `df[col].astype(str)` renders a missing cell as the text `"nan"`. -/
def pyStrCell (cell : Option Value) : String :=
  match cell with
  | none => "nan"
  | some v => pyStr v

/-- A loaded table: column headers plus rows of optional cells.  The
source's invariant is one cell per header in every row. -/
structure Table where
  header : List String
  rows : List (List (Option Value))
deriving DecidableEq

/-- Column `j` of a table, top to bottom (`none` past a row's end). -/
def colCells (t : Table) (j : Nat) : List (Option Value) :=
  t.rows.map (fun r => r.getD j none)

/-! ## Forward fill (pandas `fillna(method='ffill')`) -/

/-- One step of pandas `ffill`: a present cell replaces the carried value,
a missing cell is replaced by it. -/
def ffillStep (cell acc : Option Value) : Option Value :=
  match cell with
  | some x => some x
  | none => acc

/-- `ffill` on a plain list of cells, carrying `acc` downward. -/
def ffillList (acc : Option Value) : List (Option Value) → List (Option Value)
  | [] => []
  | c :: cs => ffillStep c acc :: ffillList (ffillStep c acc) cs

/-- `df[col] = df[col].fillna(method='ffill')`: forward-fill the cells at
column index `j` of every row, top to bottom. -/
def ffillRows (j : Nat) (acc : Option Value) :
    List (List (Option Value)) → List (List (Option Value))
  | [] => []
  | r :: rs =>
    r.set j (ffillStep (r.getD j none) acc) ::
      ffillRows j (ffillStep (r.getD j none) acc) rs

/-- The forward-fill of one detected column in `load_excel`
(`src/app.py`): applied only when the role resolved to a truthy
(non-empty) name that is among the table's columns. -/
def applyFfillByName (c? : Option String) (t : Table) : Table :=
  match c? with
  | none => t
  | some c =>
    if c ≠ "" ∧ c ∈ t.header then
      { t with rows := ffillRows (t.header.indexOf c) none t.rows }
    else t

/-- The hierarchy-normalization core of `load_excel` (`src/app.py`):
forward-fill the detected category column, then the detected subcategory
column. -/
def normalizeHierarchy (cd : ColumnsFound) (t : Table) : Table :=
  applyFfillByName cd.sub (applyFfillByName cd.main t)

/-- Carry `ffill` state through a list of cells: the last non-missing
value, or the initial carry. -/
def carryThrough (acc : Option Value) (l : List (Option Value)) : Option Value :=
  l.foldl (fun a c => ffillStep c a) acc

/-- The nearest preceding non-missing value of a cell list (its last
non-missing entry), or `none`. -/
def lastSome (l : List (Option Value)) : Option Value :=
  carryThrough none l

/-! ## List-update helper lemmas -/

theorem getD_set_self {α : Type} :
    ∀ (l : List α) (i : Nat) (a d : α), i < l.length → (l.set i a).getD i d = a := by
  intro l
  induction l with
  | nil => intro i a d h; simp at h
  | cons x xs ih =>
    intro i a d h
    cases i with
    | zero => rfl
    | succ i => exact ih i a d (by simpa using h)

theorem getD_set_ne {α : Type} :
    ∀ (l : List α) (i j : Nat) (a d : α), i ≠ j → (l.set i a).getD j d = l.getD j d := by
  intro l
  induction l with
  | nil => intro i j a d _; rfl
  | cons x xs ih =>
    intro i j a d hne
    cases i with
    | zero =>
      cases j with
      | zero => exact absurd rfl hne
      | succ j => rfl
    | succ i =>
      cases j with
      | zero => rfl
      | succ j => exact ih i j a d (by omega)

theorem set_of_length_le {α : Type} :
    ∀ (l : List α) (i : Nat) (a : α), l.length ≤ i → l.set i a = l := by
  intro l
  induction l with
  | nil => intro i a _; rfl
  | cons x xs ih =>
    intro i a h
    cases i with
    | zero => simp at h
    | succ i => simpa using ih i a (by simpa using h)

/-! ## Forward-fill lemmas -/

theorem ffillStep_idem (c a : Option Value) :
    ffillStep (ffillStep c a) a = ffillStep c a := by
  cases c <;> cases a <;> rfl

theorem ffillList_get (i : Nat) :
    ∀ (l : List (Option Value)) (acc : Option Value), l.get? i = some none →
      (ffillList acc l).get? i = some (carryThrough acc (l.take i)) := by
  induction i with
  | zero =>
    intro l acc h
    cases l with
    | nil => simp at h
    | cons c cs =>
      obtain rfl : c = none := by simpa using h
      rfl
  | succ i ih =>
    intro l acc h
    cases l with
    | nil => simp at h
    | cons c cs =>
      show (ffillList (ffillStep c acc) cs).get? i = _
      rw [ih cs (ffillStep c acc) (by simpa using h)]
      rfl

theorem ffillList_idem :
    ∀ (l : List (Option Value)) (acc : Option Value),
      ffillList acc (ffillList acc l) = ffillList acc l := by
  intro l
  induction l with
  | nil => intro acc; rfl
  | cons c cs ih =>
    intro acc
    show ffillStep (ffillStep c acc) acc :: _ = ffillStep c acc :: _
    rw [ffillStep_idem]
    exact congrArg _ (ih (ffillStep c acc))

theorem ffillRows_map_getD_self (j : Nat) :
    ∀ (rows : List (List (Option Value))) (acc : Option Value),
      (∀ r ∈ rows, j < r.length) →
      (ffillRows j acc rows).map (fun r => r.getD j none) =
        ffillList acc (rows.map (fun r => r.getD j none)) := by
  intro rows
  induction rows with
  | nil => intro acc _; rfl
  | cons r rs ih =>
    intro acc hlen
    show (r.set j _).getD j none :: _ = _
    rw [getD_set_self r j _ none (hlen r (by simp))]
    exact congrArg _ (ih (ffillStep (r.getD j none) acc)
      (fun r' hr' => hlen r' (by simp [hr'])))

theorem ffillRows_map_getD_ne (j j' : Nat) (hne : j' ≠ j) :
    ∀ (rows : List (List (Option Value))) (acc : Option Value),
      (ffillRows j acc rows).map (fun r => r.getD j' none) =
        rows.map (fun r => r.getD j' none) := by
  intro rows
  induction rows with
  | nil => intro acc; rfl
  | cons r rs ih =>
    intro acc
    show (r.set j _).getD j' none :: _ = _
    rw [getD_set_ne r j j' _ none (fun h => hne h.symm)]
    exact congrArg _ (ih _)

theorem ffillRows_map_length (j : Nat) :
    ∀ (rows : List (List (Option Value))) (acc : Option Value),
      (ffillRows j acc rows).map List.length = rows.map List.length := by
  intro rows
  induction rows with
  | nil => intro acc; rfl
  | cons r rs ih =>
    intro acc
    show (r.set j _).length :: _ = _
    rw [List.length_set]
    exact congrArg _ (ih _)

theorem ffillRows_idem (j : Nat) :
    ∀ (rows : List (List (Option Value))) (acc : Option Value),
      ffillRows j acc (ffillRows j acc rows) = ffillRows j acc rows := by
  intro rows
  induction rows with
  | nil => intro acc; rfl
  | cons r rs ih =>
    intro acc
    by_cases hj : j < r.length
    · show (r.set j _).set j
        (ffillStep ((r.set j _).getD j none) acc) :: _ = _
      rw [getD_set_self r j _ none hj, ffillStep_idem, List.set_set]
      exact congrArg _ (ih (ffillStep (r.getD j none) acc))
    · have hset : r.set j (ffillStep (r.getD j none) acc) = r :=
        set_of_length_le r j _ (by omega)
      show (r.set j _).set j
        (ffillStep ((r.set j _).getD j none) acc) :: _ = _
      rw [hset]
      exact congrArg _ (ih (ffillStep (r.getD j none) acc))

theorem ffillRows_comm (j j' : Nat) (hne : j ≠ j') :
    ∀ (rows : List (List (Option Value))) (a b : Option Value),
      ffillRows j a (ffillRows j' b rows) = ffillRows j' b (ffillRows j a rows) := by
  intro rows
  induction rows with
  | nil => intro a b; rfl
  | cons r rs ih =>
    intro a b
    show (r.set j' _).set j (ffillStep ((r.set j' _).getD j none) a) :: _ =
      (r.set j _).set j' (ffillStep ((r.set j _).getD j' none) b) :: _
    rw [getD_set_ne r j' j _ none (fun h => hne h.symm),
      getD_set_ne r j j' _ none hne,
      List.set_comm _ _ r (fun h => hne h.symm)]
    exact congrArg _ (ih _ _)

/-! ## Normalizer-level lemmas -/

theorem applyFfill_header (c? : Option String) (t : Table) :
    (applyFfillByName c? t).header = t.header := by
  cases c? with
  | none => rfl
  | some c =>
    by_cases hcond : c ≠ "" ∧ c ∈ t.header
    · simp only [applyFfillByName, if_pos hcond]
    · simp only [applyFfillByName, if_neg hcond]

theorem applyFfill_wf (c? : Option String) (t : Table)
    (hwf : ∀ r ∈ t.rows, r.length = t.header.length) :
    ∀ r ∈ (applyFfillByName c? t).rows, r.length = t.header.length := by
  cases c? with
  | none => exact hwf
  | some c =>
    by_cases hcond : c ≠ "" ∧ c ∈ t.header
    · simp only [applyFfillByName, if_pos hcond]
      intro r hr
      have hmem : r.length ∈
          (ffillRows (t.header.indexOf c) none t.rows).map List.length :=
        List.mem_map_of_mem _ hr
      rw [ffillRows_map_length] at hmem
      obtain ⟨r', hr', hlen⟩ := List.mem_map.mp hmem
      rw [← hlen]
      exact hwf r' hr'
    · simp only [applyFfillByName, if_neg hcond]
      exact hwf

theorem applyFfill_idem (c? : Option String) (t : Table) :
    applyFfillByName c? (applyFfillByName c? t) = applyFfillByName c? t := by
  cases c? with
  | none => rfl
  | some c =>
    by_cases hcond : c ≠ "" ∧ c ∈ t.header
    · have h1 : applyFfillByName (some c) t =
          { t with rows := ffillRows (t.header.indexOf c) none t.rows } := by
        simp only [applyFfillByName, if_pos hcond]
      rw [h1]
      show (if c ≠ "" ∧ c ∈ t.header then _ else _) = _
      rw [if_pos hcond]
      exact congrArg (fun rs => ({ t with rows := rs } : Table))
        (ffillRows_idem (t.header.indexOf c) t.rows none)
    · have h1 : applyFfillByName (some c) t = t := by
        simp only [applyFfillByName, if_neg hcond]
      rw [h1, h1]

theorem applyFfill_comm (c? d? : Option String) (t : Table) :
    applyFfillByName c? (applyFfillByName d? t) =
      applyFfillByName d? (applyFfillByName c? t) := by
  cases c? with
  | none => rfl
  | some c =>
    cases d? with
    | none => rfl
    | some d =>
      by_cases hc : c ≠ "" ∧ c ∈ t.header
      · by_cases hd : d ≠ "" ∧ d ∈ t.header
        · by_cases hcd : c = d
          · subst hcd; rfl
          · have h1 : applyFfillByName (some c) t =
                { t with rows := ffillRows (t.header.indexOf c) none t.rows } := by
              simp only [applyFfillByName, if_pos hc]
            have h2 : applyFfillByName (some d) t =
                { t with rows := ffillRows (t.header.indexOf d) none t.rows } := by
              simp only [applyFfillByName, if_pos hd]
            have hne : t.header.indexOf c ≠ t.header.indexOf d := by
              intro h
              apply hcd
              have g1 := List.indexOf_get (List.indexOf_lt_length.mpr hc.2)
              have g2 := List.indexOf_get (List.indexOf_lt_length.mpr hd.2)
              rw [← g1, ← g2]
              exact congrArg t.header.get (Fin.ext h)
            rw [h1, h2]
            show (if c ≠ "" ∧ c ∈ t.header then _ else _) =
              (if d ≠ "" ∧ d ∈ t.header then _ else _)
            rw [if_pos hc, if_pos hd]
            exact congrArg (fun rs => ({ t with rows := rs } : Table))
              (ffillRows_comm _ _ hne t.rows none none)
        · have h2 : applyFfillByName (some d) t = t := by
            simp only [applyFfillByName, if_neg hd]
          have h2' : ∀ s : Table, s.header = t.header →
              applyFfillByName (some d) s = s := by
            intro s hs
            simp only [applyFfillByName]
            rw [if_neg (by rw [hs]; exact hd)]
          rw [h2, h2' _ (applyFfill_header _ t)]
      · have h1 : ∀ s : Table, s.header = t.header →
            applyFfillByName (some c) s = s := by
          intro s hs
          simp only [applyFfillByName]
          rw [if_neg (by rw [hs]; exact hc)]
        rw [h1 t rfl, h1 _ (applyFfill_header _ t)]

theorem normalizeHierarchy_header (cd : ColumnsFound) (t : Table) :
    (normalizeHierarchy cd t).header = t.header := by
  unfold normalizeHierarchy
  rw [applyFfill_header, applyFfill_header]

/-! ## Claim C7: idempotence of the normalizer -/

/-- C7: normalizing an already-normalized table is a no-op, for every
table and role map. -/
theorem c7_normalize_idempotent (cd : ColumnsFound) (t : Table) :
    normalizeHierarchy cd (normalizeHierarchy cd t) = normalizeHierarchy cd t := by
  unfold normalizeHierarchy
  rw [applyFfill_comm cd.main cd.sub, applyFfill_idem, applyFfill_idem]

/-! ## Column-level behaviour of the normalizer -/

theorem applyFfill_colCells_hit (c : String) (t : Table)
    (hcond : c ≠ "" ∧ c ∈ t.header)
    (hlen : ∀ r ∈ t.rows, t.header.indexOf c < r.length) :
    colCells (applyFfillByName (some c) t) (t.header.indexOf c) =
      ffillList none (colCells t (t.header.indexOf c)) := by
  simp only [applyFfillByName, if_pos hcond]
  exact ffillRows_map_getD_self _ t.rows none hlen

theorem applyFfill_colCells_other (c? : Option String) (t : Table) (j : Nat)
    (hj : ∀ c, c? = some c → c ≠ "" → c ∈ t.header → j ≠ t.header.indexOf c) :
    colCells (applyFfillByName c? t) j = colCells t j := by
  cases c? with
  | none => rfl
  | some c =>
    by_cases hcond : c ≠ "" ∧ c ∈ t.header
    · simp only [applyFfillByName, if_pos hcond]
      exact ffillRows_map_getD_ne _ j (hj c rfl hcond.1 hcond.2) t.rows none
    · simp only [applyFfillByName, if_neg hcond]

theorem applyFfill_colCells_cases (c? : Option String) (t : Table) (j : Nat)
    (hwf : ∀ r ∈ t.rows, r.length = t.header.length) :
    colCells (applyFfillByName c? t) j = colCells t j ∨
    colCells (applyFfillByName c? t) j = ffillList none (colCells t j) := by
  cases c? with
  | none => exact Or.inl rfl
  | some c =>
    by_cases hcond : c ≠ "" ∧ c ∈ t.header
    · by_cases hji : j = t.header.indexOf c
      · subst hji
        refine Or.inr (applyFfill_colCells_hit c t hcond ?_)
        intro r hr
        rw [hwf r hr]
        exact List.indexOf_lt_length.mpr hcond.2
      · exact Or.inl (applyFfill_colCells_other (some c) t j
          (fun c' hc' _ _ => by
            obtain rfl := Option.some.inj hc'
            exact hji))
    · exact Or.inl (applyFfill_colCells_other (some c) t j
        (fun c' hc' h1 h2 => by
          obtain rfl := Option.some.inj hc'
          exact absurd ⟨h1, h2⟩ hcond))

theorem normalize_colCells_target (cd : ColumnsFound) (t : Table) (c : String)
    (hwf : ∀ r ∈ t.rows, r.length = t.header.length)
    (htarget : (cd.main = some c ∧ c ≠ "" ∧ c ∈ t.header) ∨
               (cd.sub = some c ∧ c ≠ "" ∧ c ∈ t.header)) :
    colCells (normalizeHierarchy cd t) (t.header.indexOf c) =
      ffillList none (colCells t (t.header.indexOf c)) := by
  have hX : (applyFfillByName cd.main t).header = t.header := applyFfill_header _ _
  have hwfX : ∀ r ∈ (applyFfillByName cd.main t).rows,
      r.length = (applyFfillByName cd.main t).header.length := by
    rw [hX]; exact applyFfill_wf cd.main t hwf
  rcases htarget with ⟨hm, hcond⟩ | ⟨hs, hcond⟩
  · -- the category column: the inner apply ffills it, the outer apply
    -- either leaves it alone or ffills it again (idempotent either way)
    have hinner : colCells (applyFfillByName cd.main t) (t.header.indexOf c) =
        ffillList none (colCells t (t.header.indexOf c)) := by
      rw [hm]
      exact applyFfill_colCells_hit c t hcond (fun r hr => by
        rw [hwf r hr]; exact List.indexOf_lt_length.mpr hcond.2)
    unfold normalizeHierarchy
    rcases applyFfill_colCells_cases cd.sub (applyFfillByName cd.main t)
        (t.header.indexOf c) hwfX with h | h
    · rw [h, hinner]
    · rw [h, hinner, ffillList_idem]
  · -- the subcategory column: the inner apply leaves it alone or ffills
    -- it, the outer apply ffills it
    have houter : colCells (applyFfillByName cd.sub (applyFfillByName cd.main t))
        (t.header.indexOf c) =
        ffillList none (colCells (applyFfillByName cd.main t)
          (t.header.indexOf c)) := by
      have hcondX : c ≠ "" ∧ c ∈ (applyFfillByName cd.main t).header := by
        rw [hX]; exact hcond
      have := applyFfill_colCells_hit c (applyFfillByName cd.main t) hcondX
        (fun r hr => by
          rw [hwfX r hr, hX]
          exact List.indexOf_lt_length.mpr hcond.2)
      rw [hs]
      rw [show (applyFfillByName cd.main t).header.indexOf c =
          t.header.indexOf c by rw [hX]] at this
      exact this
    unfold normalizeHierarchy
    rcases applyFfill_colCells_cases cd.main t (t.header.indexOf c) hwf with h | h
    · rw [houter, h]
    · rw [houter, h, ffillList_idem]

/-! ## Claim C6: forward-fill semantics of the normalizer -/

/-- C6: in the normalized table, a category (or subcategory) cell that was
originally missing equals the nearest preceding original non-missing value
in the same column (`none` when no preceding row has one), and every
column other than the resolved category/subcategory columns is
unchanged. -/
theorem c6_forward_fill (t : Table) (cd : ColumnsFound)
    (hwf : ∀ r ∈ t.rows, r.length = t.header.length) :
    (∀ c, ((cd.main = some c ∧ c ≠ "" ∧ c ∈ t.header) ∨
           (cd.sub = some c ∧ c ≠ "" ∧ c ∈ t.header)) →
      ∀ i, (colCells t (t.header.indexOf c)).get? i = some none →
        (colCells (normalizeHierarchy cd t) (t.header.indexOf c)).get? i =
          some (lastSome ((colCells t (t.header.indexOf c)).take i))) ∧
    (∀ j, (∀ c, cd.main = some c → c ≠ "" → c ∈ t.header →
            j ≠ t.header.indexOf c) →
          (∀ c, cd.sub = some c → c ≠ "" → c ∈ t.header →
            j ≠ t.header.indexOf c) →
      colCells (normalizeHierarchy cd t) j = colCells t j) := by
  constructor
  · intro c htarget i hmiss
    rw [normalize_colCells_target cd t c hwf htarget]
    exact ffillList_get i _ none hmiss
  · intro j h1 h2
    unfold normalizeHierarchy
    have hX : (applyFfillByName cd.main t).header = t.header := applyFfill_header _ _
    rw [applyFfill_colCells_other cd.sub _ j (fun c hc hne hmem => by
      rw [hX] at hmem ⊢
      exact h2 c hc hne hmem)]
    exact applyFfill_colCells_other cd.main t j h1

/-- Concrete table for the C6 witness: category `"Door"` spans two rows
via a merged-cell-style blank in the second row. -/
def tblW : Table :=
  { header := ["Module", "Sub Module", "Components"]
    rows := [[some (.str "Door"), some (.str "Hinge"), some (.str "a")],
             [none, none, some (.str "b")]] }

/-- Role map for the C6 witness. -/
def cdW : ColumnsFound :=
  { main := some "Module", sub := some "Sub Module"
    component := some "Components", prep_time := none
    activity_time := none, total_time := none, manpower := none }

/-- Witness for C6: in `tblW` the second row's missing category cell is
filled with `"Door"` (the nearest preceding original value), and the
untouched `Components` column (index 2) is unchanged. -/
theorem c6_witness :
    (colCells (normalizeHierarchy cdW tblW) (tblW.header.indexOf "Module")).get? 1 =
      some (lastSome ((colCells tblW (tblW.header.indexOf "Module")).take 1)) ∧
    colCells (normalizeHierarchy cdW tblW) 2 = colCells tblW 2 := by
  constructor
  · exact (c6_forward_fill tblW cdW (by decide)).1 "Module"
      (Or.inl ⟨rfl, by decide, by decide⟩) 1 (by decide)
  · refine (c6_forward_fill tblW cdW (by decide)).2 2 ?_ ?_
    · intro c hc _ _
      obtain rfl := Option.some.inj
        (show (some "Module" : Option String) = some c from hc)
      decide
    · intro c hc _ _
      obtain rfl := Option.some.inj
        (show (some "Sub Module" : Option String) = some c from hc)
      decide

/-! ## Python string ordering and `sorted`
Python compares strings lexicographically by code point; `sorted` is a
stable ascending sort, modelled by insertion sort over that order. -/

/-- Lexicographic (code-point) comparison of character lists, Python's
`<=` on strings. -/
def listLe : List Char → List Char → Bool
  | [], _ => true
  | _ :: _, [] => false
  | a :: as, b :: bs => if a = b then listLe as bs else decide (a < b)

/-- Python `s1 <= s2` on strings. -/
def pyStrLe (s1 s2 : String) : Bool := listLe s1.data s2.data

theorem listLe_total : ∀ x y : List Char, listLe x y = true ∨ listLe y x = true := by
  intro x
  induction x with
  | nil => intro y; exact Or.inl rfl
  | cons a as ih =>
    intro y
    cases y with
    | nil => exact Or.inr rfl
    | cons b bs =>
      by_cases hab : a = b
      · subst hab
        simp only [listLe, if_pos rfl]
        exact ih bs
      · rcases lt_or_gt_of_ne hab with h | h
        · exact Or.inl (by simp [listLe, if_neg hab, h])
        · exact Or.inr (by simp [listLe, if_neg (Ne.symm hab), h])

theorem listLe_trans :
    ∀ x y z : List Char, listLe x y = true → listLe y z = true →
      listLe x z = true := by
  intro x
  induction x with
  | nil => intro y z _ _; rfl
  | cons a as ih =>
    intro y z hxy hyz
    cases y with
    | nil => simp [listLe] at hxy
    | cons b bs =>
      cases z with
      | nil => simp [listLe] at hyz
      | cons c cs =>
        by_cases hab : a = b <;> by_cases hbc : b = c
        · subst hab; subst hbc
          simp only [listLe, if_pos rfl] at hxy hyz ⊢
          exact ih bs cs hxy hyz
        · subst hab
          simp only [listLe, if_pos rfl, if_neg hbc, decide_eq_true_eq] at hyz ⊢
          exact hyz
        · subst hbc
          simp only [listLe, if_neg hab, decide_eq_true_eq] at hxy ⊢
          exact hxy
        · simp only [listLe, if_neg hab, if_neg hbc, decide_eq_true_eq] at hxy hyz
          have hac : a < c := lt_trans hxy hyz
          simp [listLe, if_neg (ne_of_lt hac), hac]

theorem pyStrLe_total (s1 s2 : String) :
    pyStrLe s1 s2 = true ∨ pyStrLe s2 s1 = true := listLe_total _ _

theorem pyStrLe_trans {s1 s2 s3 : String} (h1 : pyStrLe s1 s2 = true)
    (h2 : pyStrLe s2 s3 = true) : pyStrLe s1 s3 = true := listLe_trans _ _ _ h1 h2

/-- Insert into a sorted list, keeping earlier elements first among
equals (stability, as Python's `sorted` guarantees). -/
def insertSorted (x : String) : List String → List String
  | [] => [x]
  | y :: ys => if pyStrLe x y then x :: y :: ys else y :: insertSorted x ys

/-- Python `sorted` on a list of strings (stable ascending insertion
sort over the code-point order). -/
def pySorted : List String → List String
  | [] => []
  | x :: xs => insertSorted x (pySorted xs)

theorem mem_insertSorted (x z : String) :
    ∀ l, z ∈ insertSorted x l ↔ z = x ∨ z ∈ l := by
  intro l
  induction l with
  | nil => simp [insertSorted]
  | cons y ys ih =>
    by_cases h : pyStrLe x y = true
    · simp [insertSorted, h]
    · simp only [insertSorted, if_neg h, List.mem_cons, ih]
      tauto

theorem sorted_insertSorted (x : String) :
    ∀ l, List.Sorted (fun a b => pyStrLe a b = true) l →
      List.Sorted (fun a b => pyStrLe a b = true) (insertSorted x l) := by
  intro l
  induction l with
  | nil => intro _; simp [insertSorted]
  | cons y ys ih =>
    intro h
    rw [List.sorted_cons] at h
    obtain ⟨hy, hys⟩ := h
    by_cases hxy : pyStrLe x y = true
    · rw [insertSorted, if_pos hxy, List.sorted_cons]
      refine ⟨?_, List.sorted_cons.mpr ⟨hy, hys⟩⟩
      intro z hz
      rcases List.mem_cons.mp hz with rfl | hz
      · exact hxy
      · exact pyStrLe_trans hxy (hy z hz)
    · rw [insertSorted, if_neg hxy, List.sorted_cons]
      refine ⟨?_, ih hys⟩
      intro z hz
      rcases (mem_insertSorted x z ys).mp hz with rfl | hz
      · rcases pyStrLe_total z y with h | h
        · exact absurd h hxy
        · exact h
      · exact hy z hz

theorem sorted_pySorted :
    ∀ l, List.Sorted (fun a b => pyStrLe a b = true) (pySorted l) := by
  intro l
  induction l with
  | nil => simp [pySorted]
  | cons x xs ih => exact sorted_insertSorted x _ ih

theorem mem_pySorted (z : String) : ∀ l, z ∈ pySorted l ↔ z ∈ l := by
  intro l
  induction l with
  | nil => simp [pySorted]
  | cons x xs ih =>
    simp only [pySorted, mem_insertSorted, ih, List.mem_cons]

/-! ## pandas `unique` (first-occurrence order, on raw values) -/

/-- pandas `Series.unique`: keep the first occurrence of each raw value,
in order. -/
def dedupAux (seen : List Value) : List Value → List Value
  | [] => []
  | v :: vs => if v ∈ seen then dedupAux seen vs else v :: dedupAux (v :: seen) vs

theorem mem_dedupAux (x : Value) :
    ∀ l seen, x ∈ dedupAux seen l → x ∈ l := by
  intro l
  induction l with
  | nil => intro seen h; simp [dedupAux] at h
  | cons v vs ih =>
    intro seen h
    by_cases hv : v ∈ seen
    · rw [dedupAux, if_pos hv] at h
      exact List.mem_cons_of_mem _ (ih seen h)
    · rw [dedupAux, if_neg hv] at h
      rcases List.mem_cons.mp h with rfl | h
      · exact List.mem_cons_self _ _
      · exact List.mem_cons_of_mem _ (ih _ h)

/-! ## Claim C8: `get_main_values` (`src/app.py`) -/

/-- `get_main_values(df, col_dict)` from `src/app.py`:
`sorted([str(x) for x in df[col_name].dropna().unique()])`, guarded by
the `df is None` / `col_dict.get('main') is None` checks and the
`col_name in df.columns` test (anything else returns `[]`). -/
def get_main_values (t : Option Table) (cd : ColumnsFound) : List String :=
  match t, cd.main with
  | some tb, some c =>
    if c ∈ tb.header then
      pySorted ((dedupAux []
        ((colCells tb (tb.header.indexOf c)).filterMap id)).map pyStr)
    else []
  | _, _ => []

/-- Table exhibiting the C8 counterexample: the category column holds the
integer `1` and the text `"1"`, distinct raw values with equal `str`
forms. -/
def tbl8 : Table :=
  { header := ["Category"], rows := [[some (.int 1)], [some (.str "1")]] }

/-- Role map for `tbl8`. -/
def cd8 : ColumnsFound :=
  { main := some "Category", sub := none, component := none, prep_time := none
    activity_time := none, total_time := none, manpower := none }

/-- C8 (counterexample): `unique()` deduplicates the raw values before
`str()` is applied, so a column holding the integer `1` and the text
`"1"` yields `["1", "1"]` — the output has duplicates and is not
strictly ascending. -/
theorem c8_counterexample :
    get_main_values (some tbl8) cd8 = ["1", "1"] ∧
    ¬ (get_main_values (some tbl8) cd8).Nodup := by
  refine ⟨rfl, ?_⟩
  show ¬ (["1", "1"] : List String).Nodup
  decide

/-- C8 (amended): `listCategories` output is weakly sorted ascending
(lexicographic on the stringified values), is empty when the table is
absent/empty or the category role is unresolved, and every element is the
stringification of some non-missing cell of the category column.
Deduplication happens on the raw values before stringification, so
distinct raw values with equal string forms leave duplicates, and only
weak (not strict) ascent holds. -/
theorem c8_list_categories (t : Option Table) (cd : ColumnsFound) :
    List.Sorted (fun a b => pyStrLe a b = true) (get_main_values t cd) ∧
    (get_main_values none cd = []) ∧
    (cd.main = none → get_main_values t cd = []) ∧
    (∀ tb c, t = some tb → cd.main = some c → tb.rows = [] →
      get_main_values t cd = []) ∧
    (∀ s, s ∈ get_main_values t cd → ∃ tb c v, t = some tb ∧
      cd.main = some c ∧ some v ∈ colCells tb (tb.header.indexOf c) ∧
      s = pyStr v) := by
  refine ⟨?_, ?_, ?_, ?_, ?_⟩
  · cases t with
    | none => cases hc : cd.main <;> simp [get_main_values]
    | some tb =>
      cases hc : cd.main with
      | none => simp [get_main_values, hc]
      | some c =>
        simp only [get_main_values, hc]
        split
        · exact sorted_pySorted _
        · simp
  · cases hc : cd.main <;> rfl
  · intro hc
    cases t with
    | none => rfl
    | some tb => simp [get_main_values, hc]
  · intro tb c ht hc hrows
    subst ht
    simp only [get_main_values, hc, colCells, hrows, List.map_nil,
      List.filterMap_nil]
    split <;> rfl
  · intro s hs
    cases t with
    | none =>
      rw [show get_main_values none cd = [] from by cases hc : cd.main <;> rfl]
        at hs
      simp at hs
    | some tb =>
      cases hc : cd.main with
      | none =>
        rw [show get_main_values (some tb) cd = [] from by
          simp [get_main_values, hc]] at hs
        simp at hs
      | some c =>
        simp only [get_main_values, hc] at hs
        by_cases hmem : c ∈ tb.header
        · rw [if_pos hmem, mem_pySorted] at hs
          obtain ⟨v, hv, rfl⟩ := List.mem_map.mp hs
          have hv' : v ∈ (colCells tb (tb.header.indexOf c)).filterMap id :=
            mem_dedupAux v _ [] hv
          obtain ⟨a, ha, hav⟩ := List.mem_filterMap.mp hv'
          obtain rfl : a = some v := hav
          exact ⟨tb, c, v, rfl, rfl, ha, rfl⟩
        · rw [if_neg hmem] at hs
          simp at hs

/-- Witness for C8 (amended) at concrete inputs: the `tbl8` output is
weakly sorted, the empty table yields `[]`, and the element `"1"` comes
from a non-missing cell of the category column. -/
theorem c8_witness :
    List.Sorted (fun a b => pyStrLe a b = true)
      (get_main_values (some tbl8) cd8) ∧
    get_main_values (some { header := ["Category"], rows := [] }) cd8 = [] ∧
    (∃ tb c v, (some tbl8 : Option Table) = some tb ∧ cd8.main = some c ∧
      some v ∈ colCells tb (tb.header.indexOf c) ∧ "1" = pyStr v) := by
  refine ⟨(c8_list_categories (some tbl8) cd8).1, ?_, ?_⟩
  · exact (c8_list_categories (some ⟨["Category"], []⟩) cd8).2.2.2.1
      ⟨["Category"], []⟩ "Category" rfl rfl rfl
  · exact (c8_list_categories (some tbl8) cd8).2.2.2.2 "1" (by decide)

/-! ## Claim C9: `get_sub_values` and `filter_data` (`src/app.py`) -/

/-- `get_sub_values(df, col_dict, main_value)` from `src/app.py`: `[]`
when the table or either role is missing (`is None` checks), otherwise
the sorted, deduplicated, stringified subcategory values of the rows
whose category cell (as `astype(str)`) equals the selected value; also
`[]` when either resolved name is not an actual column.  The
missing-role failure value is the plain empty list itself. -/
def get_sub_values (t : Option Table) (cd : ColumnsFound) (mainValue : String) :
    List String :=
  match t, cd.main, cd.sub with
  | some tb, some mc, some sc =>
    if mc ∈ tb.header ∧ sc ∈ tb.header then
      pySorted ((dedupAux []
        (((tb.rows.filter (fun r =>
            pyStrCell (r.getD (tb.header.indexOf mc) none) == mainValue)).map
          (fun r => r.getD (tb.header.indexOf sc) none)).filterMap id)).map pyStr)
    else []
  | _, _, _ => []

/-- `filter_data(df, col_dict, main_value, sub_values)` from
`src/app.py`: `None` when the table or the category role is missing, or
when the resolved category name is not an actual column (the `KeyError`
is caught and turned into `None`).  Otherwise the rows whose stringified
category cell equals the selected value, restricted further by the
subcategory selection when it is non-empty and the subcategory role is
truthy and present. -/
def filter_data (t : Option Table) (cd : ColumnsFound) (mainValue : String)
    (subValues : List String) : Option Table :=
  match t, cd.main with
  | some tb, some mc =>
    if mc ∈ tb.header then
      let f1 := tb.rows.filter (fun r =>
        pyStrCell (r.getD (tb.header.indexOf mc) none) == mainValue)
      let f2 :=
        if subValues ≠ [] then
          match cd.sub with
          | some sc =>
            if sc ≠ "" ∧ sc ∈ tb.header then
              f1.filter (fun r =>
                subValues.contains (pyStrCell (r.getD (tb.header.indexOf sc) none)))
            else f1
          | none => f1
        else f1
      some { header := tb.header, rows := f2 }
    else none
  | _, _ => none

/-- Table for the C9 counterexample and witness. -/
def tbl9 : Table :=
  { header := ["Module", "Sub Module"]
    rows := [[some (.str "Door"), some (.str "Hinge")]] }

/-- Fully resolved role map for `tbl9`. -/
def cd9 : ColumnsFound :=
  { main := some "Module", sub := some "Sub Module", component := none
    prep_time := none, activity_time := none, total_time := none
    manpower := none }

/-- Role map for `tbl9` with the category role unresolved. -/
def cd9noMain : ColumnsFound :=
  { main := none, sub := some "Sub Module", component := none
    prep_time := none, activity_time := none, total_time := none
    manpower := none }

/-- C9 (counterexample): `get_sub_values` with the category role
unresolved returns the same plain `[]` as a successful call that matches
zero rows — `listSubcategories` has no distinguished failure value. -/
theorem c9_counterexample :
    get_sub_values (some tbl9) cd9noMain "Door" = [] ∧
    get_sub_values (some tbl9) cd9 "Elevator" = [] := ⟨rfl, rfl⟩

/-- C9 (amended): `filter` does signal a missing category role distinctly
(`None`, never returned on success), but `listSubcategories` signals it
as the plain empty list, indistinguishable from an empty success. -/
theorem c9_missing_role (t : Table) (cd : ColumnsFound) (mv : String)
    (sv : List String) :
    (cd.main = none → filter_data (some t) cd mv sv = none ∧
      get_sub_values (some t) cd mv = []) ∧
    (∀ tb, filter_data (some t) cd mv sv = some tb → cd.main ≠ none) := by
  constructor
  · intro hm
    constructor
    · simp [filter_data, hm]
    · cases hs : cd.sub <;> simp [get_sub_values, hm, hs]
  · intro tb h hm
    rw [show filter_data (some t) cd mv sv = none from by
      simp [filter_data, hm]] at h
    exact Option.noConfusion h

/-- Witness for C9 (amended): with the category role unresolved,
`filter_data` returns `none` and `get_sub_values` returns `[]`; with the
role resolved, `filter_data` succeeds, so its result is not `none`. -/
theorem c9_witness :
    (filter_data (some tbl9) cd9noMain "Door" [] = none ∧
      get_sub_values (some tbl9) cd9noMain "Door" = []) ∧
    cd9.main ≠ none := by
  constructor
  · exact (c9_missing_role tbl9 cd9noMain "Door" []).1 rfl
  · exact (c9_missing_role tbl9 cd9 "Door" []).2 tbl9 rfl

/-! ## Claim C5: aggregation over the manpower column -/

/-- `time_str_to_seconds` applied to a raw cell, as the statistics code
does (`pd.isna` guard, then `str(...)` then parse). -/
def timeCellSeconds (cell : Option Value) : Int :=
  match cell with
  | none => 0
  | some v => time_str_to_seconds (some (pyStr v))

/-- Numeric coercion of a text by `pd.to_numeric(errors='coerce')`:
plain decimal notation (digits, optional fractional part).  Exponents,
underscores and non-ASCII digits are not modelled; any unmodelled text
coerces to `NaN` (`none`), as `errors='coerce'` prescribes for
non-numeric text. -/
def pyFloatCore (cs : List Char) : Option Rat :=
  match splitOnChar '.' cs with
  | [d] =>
    if d ≠ [] ∧ d.all isDigitChar then some ((natOfDigits d : Nat) : Rat)
    else none
  | [d1, d2] =>
    if (d1 ++ d2) ≠ [] ∧ (d1 ++ d2).all isDigitChar then
      some ((natOfDigits d1 : Nat) +
        ((natOfDigits d2 : Nat) : Rat) / ((10 : Rat) ^ d2.length))
    else none
  | _ => none

/-- `pd.to_numeric(errors='coerce')` on a text, with an optional sign. -/
def pyFloat (s : String) : Option Rat :=
  match wsTrim s.data with
  | '-' :: rest => (pyFloatCore rest).map (fun q => -q)
  | '+' :: rest => pyFloatCore rest
  | cs => pyFloatCore cs

/-- `pd.to_numeric(cell, errors='coerce')` on one cell (`NaN` is
`none`). -/
def to_numeric_cell (cell : Option Value) : Option Rat :=
  match cell with
  | none => none
  | some (.int n) => some ((n : Int) : Rat)
  | some (.str s) => pyFloat s

/-- Python `int(...)` on a number truncates toward zero. -/
def pyTruncRat (q : Rat) : Int := q.num.tdiv (q.den : Int)

/-- The statistics dictionary built by `calculate_stats` in
`src/app.py`. -/
structure StatsDict where
  records : Nat
  total_time : Int
  total_manpower : Int
  avg_manpower : Rat
deriving DecidableEq

/-- `calculate_stats(df, col_dict)` from `src/app.py`.  `none` models the
empty dictionary returned for a missing or empty table.  Manpower cells
are coerced with `pd.to_numeric(errors='coerce').dropna()`, so
non-numeric and missing cells are dropped before the sum and mean. -/
def calculate_stats (t : Option Table) (cd : ColumnsFound) : Option StatsDict :=
  match t with
  | none => none
  | some tb =>
    if tb.rows = [] then none
    else
      let tt : Int :=
        match cd.total_time with
        | some c =>
          if c ≠ "" ∧ c ∈ tb.header then
            ((colCells tb (tb.header.indexOf c)).map timeCellSeconds).sum
          else 0
        | none => 0
      match cd.manpower with
      | some c =>
        if c ≠ "" ∧ c ∈ tb.header then
          let mvals := (colCells tb (tb.header.indexOf c)).filterMap to_numeric_cell
          if mvals ≠ [] then
            some { records := tb.rows.length, total_time := tt
                   total_manpower := pyTruncRat mvals.sum
                   avg_manpower := mvals.sum / (mvals.length : Rat) }
          else
            some { records := tb.rows.length, total_time := tt
                   total_manpower := 0, avg_manpower := 0 }
        else
          some { records := tb.rows.length, total_time := tt
                 total_manpower := 0, avg_manpower := 0 }
      | none =>
        some { records := tb.rows.length, total_time := tt
               total_manpower := 0, avg_manpower := 0 }

/-- Pairwise addition used by pandas object-dtype `Series.sum`:
number + number adds, text + text concatenates, mixing raises
`TypeError` (`none`). -/
def valueAdd : Value → Value → Option Value
  | .int a, .int b => some (.int (a + b))
  | .str a, .str b => some (.str (a ++ b))
  | _, _ => none

/-- Pairwise maximum for object-dtype `Series.max`; comparing a number
with a text raises `TypeError` (`none`). -/
def valueMax : Value → Value → Option Value
  | .int a, .int b => some (.int (max a b))
  | .str a, .str b => some (.str (if pyStrLe a b then b else a))
  | _, _ => none

/-- Pairwise minimum for object-dtype `Series.min`. -/
def valueMin : Value → Value → Option Value
  | .int a, .int b => some (.int (min a b))
  | .str a, .str b => some (.str (if pyStrLe a b then a else b))
  | _, _ => none

/-- Fold a fallible pairwise operation from an initial value. -/
def pandasFoldGo (f : Value → Value → Option Value) :
    Value → List Value → Option Value
  | acc, [] => some acc
  | acc, v :: vs =>
    match f acc v with
    | some a => pandasFoldGo f a vs
    | none => none

/-- pandas object-dtype reduction (`max`/`min`): pairwise from the first
element; empty input raises (`none`). -/
def pandasReduce (f : Value → Value → Option Value) : List Value → Option Value
  | [] => none
  | v :: vs => pandasFoldGo f v vs

/-- pandas object-dtype `Series.sum`: `0` for an empty series, otherwise
pairwise addition from the first element. -/
def pandasObjSum : List Value → Option Value
  | [] => some (.int 0)
  | v :: vs => pandasFoldGo valueAdd v vs

/-- pandas object-dtype `Series.mean`: the sum divided by the count;
raises unless the sum is numeric. -/
def pandasMean (l : List Value) : Option Rat :=
  match pandasObjSum l with
  | some (.int s) => some ((s : Rat) / (l.length : Rat))
  | _ => none

/-- Python `int(x)` applied to a summed value (a text sum would have to
parse as an integer). -/
def pyIntOfValue : Value → Option Int
  | .int n => some n
  | .str s => pyInt s

/-- `df[c]` by column name: `none` models the `KeyError` on a missing
column. -/
def getColByName (tb : Table) (c : String) : Option (List (Option Value)) :=
  if c ∈ tb.header then some (colCells tb (tb.header.indexOf c)) else none

/-- The statistics dictionary built by `calculate_summary_stats` in
`src/data_processor.py`. -/
structure SummaryStats where
  total_sub_components : Nat
  total_preparation_time : Int
  total_activity_time : Int
  total_time : Int
  avg_manpower : Rat
  total_manpower : Int
  max_manpower : Int
  min_manpower : Int
deriving DecidableEq

/-- The all-zero dictionary `calculate_summary_stats` returns for a
missing or empty table. -/
def zerosSummary : SummaryStats := ⟨0, 0, 0, 0, 0, 0, 0, 0⟩

/-- `calculate_summary_stats(df)` from `src/data_processor.py`.  The
manpower column is only `dropna()`d — there is no numeric coercion — and
the subsequent `mean`/`sum`/`max`/`min` follow pandas object-dtype
semantics, so a non-numeric text among the remaining values raises
`TypeError` (`none`; the function has no exception handler). -/
def calculate_summary_stats (t : Option Table) : Option SummaryStats :=
  match t with
  | none => some zerosSummary
  | some tb =>
    if tb.rows = [] then some zerosSummary
    else
      match getColByName tb "Preparation/Finalization (h:mm:ss)",
            getColByName tb "Activity (h:mm:ss)",
            getColByName tb "Total time (h:mm:ss)",
            getColByName tb "No of man power" with
      | some cp, some ca, some ct, some cm =>
        let mvals := cm.filterMap id
        if mvals = [] then
          some { total_sub_components := tb.rows.length
                 total_preparation_time := (cp.map timeCellSeconds).sum
                 total_activity_time := (ca.map timeCellSeconds).sum
                 total_time := (ct.map timeCellSeconds).sum
                 avg_manpower := 0, total_manpower := 0
                 max_manpower := 0, min_manpower := 0 }
        else
          match pandasMean mvals, pandasObjSum mvals,
                pandasReduce valueMax mvals, pandasReduce valueMin mvals with
          | some avg, some sv, some mx, some mn =>
            match pyIntOfValue sv, pyIntOfValue mx, pyIntOfValue mn with
            | some tot, some mxi, some mni =>
              some { total_sub_components := tb.rows.length
                     total_preparation_time := (cp.map timeCellSeconds).sum
                     total_activity_time := (ca.map timeCellSeconds).sum
                     total_time := (ct.map timeCellSeconds).sum
                     avg_manpower := avg, total_manpower := tot
                     max_manpower := mxi, min_manpower := mni }
            | _, _, _ => none
          | _, _, _, _ => none
      | _, _, _, _ => none

/-- Scenario D table: the manpower column holds `[2, "n/a", 4, None]`. -/
def tblD : Table :=
  { header := ["Preparation/Finalization (h:mm:ss)", "Activity (h:mm:ss)",
               "Total time (h:mm:ss)", "No of man power"]
    rows := [[none, none, none, some (.int 2)],
             [none, none, none, some (.str "n/a")],
             [none, none, none, some (.int 4)],
             [none, none, none, none]] }

/-- Role map resolving only the manpower role of `tblD`. -/
def cdD : ColumnsFound :=
  { main := none, sub := none, component := none, prep_time := none
    activity_time := none, total_time := none
    manpower := some "No of man power" }

/-- C5: on the Scenario D manpower column `[2, "n/a", 4, None]` the
`calculate_summary_stats` variant (`src/data_processor.py`) raises — it
drops only missing cells and then sums `2 + "n/a"` — while the
role-map-driven `calculate_stats` (`src/app.py`) excludes both the
non-numeric and the missing cell and yields count 4, total 6,
mean 3.0, as the claim states. -/
theorem c5_manpower_aggregation :
    calculate_summary_stats (some tblD) = none ∧
    calculate_stats (some tblD) cdD =
      some { records := 4, total_time := 0, total_manpower := 6
             avg_manpower := 3 } := by
  constructor
  · rfl
  · have h1 : calculate_stats (some tblD) cdD =
        some { records := 4, total_time := 0
               total_manpower := pyTruncRat
                 (List.sum [((2 : Int) : Rat), ((4 : Int) : Rat)])
               avg_manpower :=
                 (List.sum [((2 : Int) : Rat), ((4 : Int) : Rat)]) /
                   ((2 : Nat) : Rat) } := rfl
    rw [h1]
    have hsum : List.sum [((2 : Int) : Rat), ((4 : Int) : Rat)] = 6 := by
      norm_num
    rw [hsum]
    have htr : pyTruncRat 6 = 6 := by
      unfold pyTruncRat
      norm_num
    have hdiv : (6 : Rat) / ((2 : Nat) : Rat) = 3 := by norm_num
    rw [htr, hdiv]

end DataVizAuto
